import Mathlib

/-!
Verification of the text-editing core of the ink-prompt repository.

The buffer/cursor algebra, word-aware wrapping, cursor navigation and the
undo/redo history engine are embedded shallowly: JS strings become
`List Char` (each UTF-16 code unit counted as one character of width 1,
as the spec prescribes), buffers become lists of lines, and the React
hook's state updates become explicit state-passing functions over an
`EditorState` record.  The debounce timer is modelled by making the
timer's callback (committing the pending insert batch) an explicit
transition; "the timer has not fired" is simply the absence of that
transition in a trace.
-/

namespace InkPrompt

/-- Cursor position: 0-indexed line and column (from types.ts). -/
structure Cursor where
  line : Nat
  column : Nat
  deriving DecidableEq

/-- Text buffer: an ordered sequence of lines (from types.ts). -/
structure Buffer where
  lines : List (List Char)
  deriving DecidableEq

/-- Movement direction (from types.ts). -/
inductive Direction where
  | up
  | down
  | left
  | right
  | lineStart
  | lineEnd
  deriving DecidableEq

/-- Information about a visual row within a wrapped line (TextBuffer.ts):
start offset in the buffer line and length of the row. -/
structure VisualRowInfo where
  start : Nat
  length : Nat
  deriving DecidableEq

/-- Embedding of `createBuffer` (TextBuffer.ts): an empty (falsy) string
yields the canonical single-empty-line buffer, otherwise the text is split
on newline characters.  JS `text.split(c)` on a single-character separator
is `List.splitOn c`. -/
def createBuffer (text : List Char) : Buffer :=
  if text = [] then ⟨[[]]⟩ else ⟨text.splitOn '\n'⟩

/-- Embedding of `insertText` (TextBuffer.ts).  JS `slice(0, column)` /
`slice(column)` become `take` / `drop`.  The out-of-bounds read
`buffer.lines[line]` (a crash in JS) is modelled with `getD`; all claims
only use in-bounds cursors, where the two agree. -/
def insertText (buffer : Buffer) (cursor : Cursor) (text : List Char) :
    Buffer × Cursor :=
  if text = [] then (buffer, cursor)
  else
    let line := cursor.line
    let column := cursor.column
    let currentLine := buffer.lines.getD line []
    let beforeCursor := currentLine.take column
    let afterCursor := currentLine.drop column
    let fullText := beforeCursor ++ text ++ afterCursor
    let newLines := fullText.splitOn '\n'
    let textLines := text.splitOn '\n'
    let cursorLine := line + (textLines.length - 1)
    let cursorColumn :=
      if textLines.length = 1 then column + text.length
      else (textLines.getLastD []).length
    let resultLines :=
      buffer.lines.take line ++ newLines ++ buffer.lines.drop (line + 1)
    (⟨resultLines⟩, ⟨cursorLine, cursorColumn⟩)

/-- Embedding of `deleteChar` (TextBuffer.ts): backspace. -/
def deleteChar (buffer : Buffer) (cursor : Cursor) : Buffer × Cursor :=
  let line := cursor.line
  let column := cursor.column
  if line = 0 ∧ column = 0 then (buffer, cursor)
  else if column = 0 then
    let previousLine := buffer.lines.getD (line - 1) []
    let currentLine := buffer.lines.getD line []
    let mergedLine := previousLine ++ currentLine
    let newLines := (buffer.lines.set (line - 1) mergedLine).eraseIdx line
    (⟨newLines⟩, ⟨line - 1, previousLine.length⟩)
  else
    let currentLine := buffer.lines.getD line []
    let newLine := currentLine.take (column - 1) ++ currentLine.drop column
    (⟨buffer.lines.set line newLine⟩, ⟨line, column - 1⟩)

/-- Embedding of `insertNewLine` (TextBuffer.ts): split the current line at
the column; JS `splice(line + 1, 0, after)` is `insertIdx (line + 1)`. -/
def insertNewLine (buffer : Buffer) (cursor : Cursor) : Buffer × Cursor :=
  let line := cursor.line
  let column := cursor.column
  let currentLine := buffer.lines.getD line []
  let beforeCursor := currentLine.take column
  let afterCursor := currentLine.drop column
  let newLines := (buffer.lines.set line beforeCursor).insertIdx (line + 1) afterCursor
  (⟨newLines⟩, ⟨line + 1, 0⟩)

/-- Embedding of the backward space-scan in `getVisualRows`
(TextBuffer.ts, the loop `for i = safeWidth - 1 downTo 0`): returns the
first index `i`, counting down from the argument, with `rem[i] = ' '`. -/
def scanBackSpace (rem : List Char) : Nat → Option Nat
  | 0 => if rem[0]? = some ' ' then some 0 else none
  | i + 1 => if rem[i + 1]? = some ' ' then some (i + 1) else scanBackSpace rem i

/-- Embedding of one iteration of the `getVisualRows` loop body: the chunk
length taken from the remaining text for width `w` (already clamped). -/
def chunkLen (rem : List Char) (w : Nat) : Nat :=
  if rem.length ≤ w then rem.length
  else
    match scanBackSpace rem (w - 1) with
    | some i => i + 1
    | none => w

/-- Embedding of the `while remaining.length > 0` loop of `getVisualRows`.
The loop consumes at least one character per iteration (the clamped width
is ≥ 1), so running it with `fuel = remaining.length` is exact. -/
def getVisualRowsGo (w : Nat) : Nat → List Char → Nat → List VisualRowInfo
  | 0, _, _ => []
  | fuel + 1, rem, offset =>
    if rem = [] then []
    else
      let c := chunkLen rem w
      ⟨offset, c⟩ :: getVisualRowsGo w fuel (rem.drop c) (offset + c)

/-- Embedding of `getVisualRows` (TextBuffer.ts): word-aware wrapping of a
single line into visual rows for a display width.  JS `Math.max(1, width)`
on a possibly negative width is `(max 1 width).toNat`. -/
def getVisualRows (line : List Char) (width : Int) : List VisualRowInfo :=
  if line.length = 0 then [⟨0, 0⟩]
  else getVisualRowsGo (max 1 width).toNat line.length line 0

/-- Embedding of the first scan loop of `getVisualPosition`
(TextBuffer.ts): find the row containing the column, or the line's last
row when the column sits exactly at its end.  `n` is the total number of
rows, `i` the index of the first row of the argument list. -/
def gvpFindRow (n col : Nat) : List VisualRowInfo → Nat → Option (Nat × Nat)
  | [], _ => none
  | r :: rest, i =>
    if r.start ≤ col ∧ col < r.start + r.length then some (i, col - r.start)
    else if col = r.start + r.length ∧ i = n - 1 then some (i, r.length)
    else gvpFindRow n col rest (i + 1)

/-- Embedding of the second scan loop of `getVisualPosition`: a column at
a non-final row's wrap point belongs to the start of the next row. -/
def gvpFindWrap (n col : Nat) : List VisualRowInfo → Nat → Option (Nat × Nat)
  | [], _ => none
  | r :: rest, i =>
    if col = r.start + r.length ∧ i < n - 1 then some (i + 1, 0)
    else gvpFindWrap n col rest (i + 1)

/-- Embedding of `getVisualPosition` (TextBuffer.ts): visual (row, column)
of a buffer column within a wrapped line.  `rows` is never empty, so the
`getLastD` default is never read. -/
def getVisualPosition (bufferColumn : Nat) (line : List Char) (width : Int) :
    Nat × Nat :=
  let rows := getVisualRows line width
  match gvpFindRow rows.length bufferColumn rows 0 with
  | some p => p
  | none =>
    match gvpFindWrap rows.length bufferColumn rows 0 with
    | some p => p
    | none =>
      let lastRow := rows.getLastD ⟨0, 0⟩
      (rows.length - 1, lastRow.length)

/-- Embedding of `getVisualRowCount` (TextBuffer.ts). -/
def getVisualRowCount (line : List Char) (width : Int) : Nat :=
  (getVisualRows line width).length

/-- Embedding of `visualToBufferColumn` (TextBuffer.ts). -/
def visualToBufferColumn (visualRow visualCol : Nat) (line : List Char)
    (width : Int) : Nat :=
  let rows := getVisualRows line width
  if rows.length ≤ visualRow then line.length
  else min ((rows.getD visualRow ⟨0, 0⟩).start + visualCol) line.length

/-- Embedding of `getVisualRowLength` (TextBuffer.ts). -/
def getVisualRowLength (line : List Char) (visualRow : Nat) (width : Int) : Nat :=
  let rows := getVisualRows line width
  if rows.length ≤ visualRow then 0
  else (rows.getD visualRow ⟨0, 0⟩).length

/-- Embedding of `moveCursor` (TextBuffer.ts): direction-based movement
with bounds checking; `up`/`down` are visual-row-aware when a width is
supplied.  JS arithmetic on indices never goes below 0 on the paths taken
here, so `Nat` subtraction is exact. -/
def moveCursor (buffer : Buffer) (cursor : Cursor) (direction : Direction)
    (width : Option Int) : Cursor :=
  let line := cursor.line
  let column := cursor.column
  let currentLine := buffer.lines.getD line []
  let lineCount := buffer.lines.length
  match direction with
  | .left =>
    if 0 < column then ⟨line, column - 1⟩
    else if 0 < line then ⟨line - 1, (buffer.lines.getD (line - 1) []).length⟩
    else cursor
  | .right =>
    if column < currentLine.length then ⟨line, column + 1⟩
    else if line < lineCount - 1 then ⟨line + 1, 0⟩
    else cursor
  | .up =>
    match width with
    | some w =>
      let vp := getVisualPosition column currentLine w
      if 0 < vp.1 then
        let targetVisualRow := vp.1 - 1
        let targetVisualRowLength := getVisualRowLength currentLine targetVisualRow w
        let targetVisualCol := min vp.2 targetVisualRowLength
        ⟨line, visualToBufferColumn targetVisualRow targetVisualCol currentLine w⟩
      else if 0 < line then
        let prevLine := buffer.lines.getD (line - 1) []
        let prevLineVisualRows := getVisualRowCount prevLine w
        let targetVisualRow := prevLineVisualRows - 1
        let targetVisualRowLength := getVisualRowLength prevLine targetVisualRow w
        let targetVisualCol := min vp.2 targetVisualRowLength
        ⟨line - 1, visualToBufferColumn targetVisualRow targetVisualCol prevLine w⟩
      else cursor
    | none =>
      if 0 < line then
        let targetLine := buffer.lines.getD (line - 1) []
        ⟨line - 1, min column targetLine.length⟩
      else cursor
  | .down =>
    match width with
    | some w =>
      let vp := getVisualPosition column currentLine w
      let currentLineVisualRows := getVisualRowCount currentLine w
      if vp.1 < currentLineVisualRows - 1 then
        let targetVisualRow := vp.1 + 1
        let targetVisualRowLength := getVisualRowLength currentLine targetVisualRow w
        let targetVisualCol := min vp.2 targetVisualRowLength
        ⟨line, visualToBufferColumn targetVisualRow targetVisualCol currentLine w⟩
      else if line < lineCount - 1 then
        let nextLine := buffer.lines.getD (line + 1) []
        let targetVisualRowLength := getVisualRowLength nextLine 0 w
        let targetVisualCol := min vp.2 targetVisualRowLength
        ⟨line + 1, min targetVisualCol nextLine.length⟩
      else cursor
    | none =>
      if line < lineCount - 1 then
        let targetLine := buffer.lines.getD (line + 1) []
        ⟨line + 1, min column targetLine.length⟩
      else cursor
  | .lineStart => ⟨line, 0⟩
  | .lineEnd => ⟨line, currentLine.length⟩

/-- Embedding of `getOffset` (TextBuffer.ts): flat offset of a cursor,
each line before `cursor.line` contributing its length plus one newline. -/
def getOffset (buffer : Buffer) (cursor : Cursor) : Nat :=
  ((buffer.lines.take cursor.line).map (fun l => l.length + 1)).sum + cursor.column

/-- Embedding of the line loop of `getCursor` (TextBuffer.ts), with the
offset made relative to the current line: on the last line the column is
clamped to the line length; on an earlier line, an offset within the line
(up to and including its end) resolves there, otherwise the loop moves
past the line and its newline.  The `[]` case is the code's unreachable
fallback (the buffer invariant guarantees at least one line). -/
def getCursorGo : List (List Char) → Nat → Cursor
  | [], _ => ⟨0, 0⟩
  | [l], offset => ⟨0, min offset l.length⟩
  | l :: l2 :: rest, offset =>
    if offset ≤ l.length then ⟨0, offset⟩
    else
      ⟨(getCursorGo (l2 :: rest) (offset - (l.length + 1))).line + 1,
       (getCursorGo (l2 :: rest) (offset - (l.length + 1))).column⟩

/-- Embedding of `getCursor` (TextBuffer.ts): cursor from a flat offset. -/
def getCursor (buffer : Buffer) (offset : Nat) : Cursor :=
  getCursorGo buffer.lines offset

/-- Embedding of `char.replace(/\r\n/g, "\n")` (useTextInput.ts): the JS
global regex replace scans left to right without overlap. -/
def replaceCRLF : List Char → List Char
  | [] => []
  | [c] => [c]
  | c1 :: c2 :: rest =>
    if c1 = '\r' ∧ c2 = '\n' then '\n' :: replaceCRLF rest
    else c1 :: replaceCRLF (c2 :: rest)

/-- Embedding of `.replace(/\r/g, "\n")` (useTextInput.ts). -/
def replaceCR (l : List Char) : List Char :=
  l.map fun c => if c = '\r' then '\n' else c

/-- Line-ending normalization performed by the hook's `insert`
(useTextInput.ts): `\r\n` to `\n`, then lone `\r` to `\n`. -/
def normalizeText (t : List Char) : List Char :=
  replaceCR (replaceCRLF t)

/-- History snapshot (useTextInput.ts `HistoryState`). -/
structure HistoryState where
  buffer : Buffer
  cursor : Cursor
  deriving DecidableEq

/-- State owned by the `useTextInput` hook: buffer, cursor, both history
stacks and the pending insert batch's captured snapshot.  The debounce
timer itself is not part of the state; its firing is the explicit
`commitPendingInsertBatch` transition. -/
structure EditorState where
  buffer : Buffer
  cursor : Cursor
  undoStack : List HistoryState
  redoStack : List HistoryState
  pendingBatch : Option HistoryState
  deriving DecidableEq

/-- Hook configuration (useTextInput.ts props). -/
structure Config where
  width : Option Int
  historyLimit : Nat
  undoDebounceMs : Nat

/-- Embedding of `appendUndoState` (useTextInput.ts): append, then evict
the oldest entries via `newStack.slice(-historyLimit)` when the limit is
exceeded.  JS `slice(-0)` equals `slice(0)` and keeps the whole stack, so
a `historyLimit` of 0 performs no eviction. -/
def appendUndoState (limit : Nat) (stack : List HistoryState)
    (s : HistoryState) : List HistoryState :=
  let newStack := stack ++ [s]
  if limit < newStack.length then
    if limit = 0 then newStack else newStack.drop (newStack.length - limit)
  else newStack

/-- Embedding of `commitPendingInsertBatch` (useTextInput.ts); this is
also exactly what the debounce timer's callback does when it fires. -/
def commitPendingInsertBatch (cfg : Config) (st : EditorState) : EditorState :=
  match st.pendingBatch with
  | none => st
  | some s =>
    { st with
      undoStack := appendUndoState cfg.historyLimit st.undoStack s
      pendingBatch := none }

/-- Embedding of `beginOrRefreshInsertBatch` (useTextInput.ts): capture
the pre-insert snapshot on the first batchable insert and clear the redo
stack; on later batchable inserts only the timer is refreshed, which has
no effect on this state. -/
def beginOrRefreshInsertBatch (st : EditorState) : EditorState :=
  match st.pendingBatch with
  | some _ => st
  | none =>
    { st with
      pendingBatch := some ⟨st.buffer, st.cursor⟩
      redoStack := [] }

/-- Embedding of `pushToHistory` (useTextInput.ts). -/
def pushToHistory (cfg : Config) (st : EditorState) : EditorState :=
  { st with
    undoStack := appendUndoState cfg.historyLimit st.undoStack ⟨st.buffer, st.cursor⟩
    redoStack := [] }

/-- Embedding of the hook's `insert` (useTextInput.ts): normalize line
endings, batch a single non-newline character when debouncing is enabled
(otherwise flush the pending batch and checkpoint), then apply the buffer
insertion. -/
def insertOp (cfg : Config) (st : EditorState) (char : List Char) : EditorState :=
  let normalized := normalizeText char
  let canBatchInsert :=
    0 < cfg.undoDebounceMs ∧ normalized.length = 1 ∧ normalized ≠ ['\n']
  let st1 :=
    if canBatchInsert then beginOrRefreshInsertBatch st
    else pushToHistory cfg (commitPendingInsertBatch cfg st)
  let result := insertText st1.buffer st1.cursor normalized
  { st1 with buffer := result.1, cursor := result.2 }

/-- Embedding of the hook's `undo` (useTextInput.ts): a pending batch is
cancelled and its captured snapshot restored directly, bypassing the undo
stack; otherwise the top of the undo stack (the JS array's last element)
is popped. -/
def undoOp (st : EditorState) : EditorState :=
  match st.pendingBatch with
  | some s =>
    { st with
      redoStack := st.redoStack ++ [⟨st.buffer, st.cursor⟩]
      buffer := s.buffer
      cursor := s.cursor
      pendingBatch := none }
  | none =>
    match st.undoStack.getLast? with
    | none => st
    | some previousState =>
      { st with
        undoStack := st.undoStack.dropLast
        redoStack := st.redoStack ++ [⟨st.buffer, st.cursor⟩]
        buffer := previousState.buffer
        cursor := previousState.cursor }

/-- Embedding of the hook's `redo` (useTextInput.ts).  Note that the push
onto the undo stack is a plain append, not `appendUndoState`. -/
def redoOp (st : EditorState) : EditorState :=
  match st.pendingBatch with
  | some _ => st
  | none =>
    match st.redoStack.getLast? with
    | none => st
    | some nextState =>
      { st with
        redoStack := st.redoStack.dropLast
        undoStack := st.undoStack ++ [⟨st.buffer, st.cursor⟩]
        buffer := nextState.buffer
        cursor := nextState.cursor }

/-- Embedding of the hook's `deleteAndNewLine` (useTextInput.ts): one
checkpoint, then backward delete and line split applied to the single
prior state. -/
def deleteAndNewLineOp (cfg : Config) (st : EditorState) : EditorState :=
  let st1 := pushToHistory cfg (commitPendingInsertBatch cfg st)
  let afterDelete := deleteChar st1.buffer st1.cursor
  let afterNewLine := insertNewLine afterDelete.1 afterDelete.2
  { st1 with buffer := afterNewLine.1, cursor := afterNewLine.2 }

/-- Embedding of the hook's `setText` (useTextInput.ts): checkpoint,
replace the buffer, and move the cursor to the end of the new text. -/
def setTextOp (cfg : Config) (st : EditorState) (text : List Char) : EditorState :=
  let st1 := pushToHistory cfg (commitPendingInsertBatch cfg st)
  let lines := text.splitOn '\n'
  { st1 with
    buffer := createBuffer text
    cursor := ⟨lines.length - 1, (lines.getLastD []).length⟩ }

/-- Embedding of the hook's initial state (useTextInput.ts `useState`
initializers): buffer from `initialValue`, cursor at the end of it,
empty history. -/
def initState (initialValue : List Char) : EditorState :=
  let lines := initialValue.splitOn '\n'
  { buffer := createBuffer initialValue
    cursor := ⟨lines.length - 1, (lines.getLastD []).length⟩
    undoStack := []
    redoStack := []
    pendingBatch := none }

/-- The text of a visual row: the sub-span of the line it describes. -/
def rowText (line : List Char) (r : VisualRowInfo) : List Char :=
  (line.drop r.start).take r.length

/-- Index of the last space of a list, if any (spec-side helper for the
wrapping comparison). -/
def lastSpacePos : List Char → Option Nat
  | [] => none
  | c :: rest =>
    match lastSpacePos rest with
    | some i => some (i + 1)
    | none => if c = ' ' then some 0 else none

/-- Row length as the spec words it: if the remainder fits within the
width it is taken whole; otherwise, if a space occurs among the first
`w` characters, the row ends just after the last such space; otherwise
the row is exactly `w` characters. -/
def specRowLen (rem : List Char) (w : Nat) : Nat :=
  if rem.length ≤ w then rem.length
  else
    match lastSpacePos (rem.take w) with
    | some i => i + 1
    | none => w

/-- Spec-side wrapping loop, same fuel discipline as `getVisualRowsGo`. -/
def getVisualRowsSpecGo (w : Nat) : Nat → List Char → Nat → List VisualRowInfo
  | 0, _, _ => []
  | fuel + 1, rem, offset =>
    if rem = [] then []
    else
      let c := specRowLen rem w
      ⟨offset, c⟩ :: getVisualRowsSpecGo w fuel (rem.drop c) (offset + c)

/-- Wrapping as described by the spec's words: width clamped to at least
1, an empty line giving one zero-length row, and each row produced by
`specRowLen`.  Stated separately from `getVisualRows` so the two can be
compared. -/
def getVisualRowsSpec (line : List Char) (width : Int) : List VisualRowInfo :=
  if line.length = 0 then [⟨0, 0⟩]
  else getVisualRowsSpecGo (max 1 width).toNat line.length line 0

theorem scanBackSpace_le (rem : List Char) :
    ∀ j i : Nat, scanBackSpace rem j = some i → i ≤ j := by
  intro j
  induction j with
  | zero =>
    intro i h
    simp only [scanBackSpace] at h
    split at h
    · cases h; exact Nat.le_refl 0
    · cases h
  | succ j ih =>
    intro i h
    simp only [scanBackSpace] at h
    split at h
    · cases h; exact Nat.le_refl _
    · exact Nat.le_trans (ih i h) (Nat.le_succ j)

theorem lastSpacePos_append (xs : List Char) (c : Char) :
    lastSpacePos (xs ++ [c]) =
      if c = ' ' then some xs.length else lastSpacePos xs := by
  induction xs with
  | nil => simp [lastSpacePos]
  | cons x xs ih =>
    by_cases hc : c = ' '
    · subst hc
      rw [if_pos rfl] at ih
      simp only [List.cons_append, lastSpacePos, List.append_eq]
      rw [ih]
      simp
    · rw [if_neg hc] at ih
      simp only [List.cons_append, lastSpacePos, List.append_eq]
      rw [ih, if_neg hc]

theorem scanBackSpace_eq_lastSpacePos (rem : List Char) :
    ∀ j : Nat, j < rem.length →
      scanBackSpace rem j = lastSpacePos (rem.take (j + 1)) := by
  intro j
  induction j with
  | zero =>
    intro h
    match rem, h with
    | c :: rest, _ =>
      simp [scanBackSpace, lastSpacePos]
  | succ j ih =>
    intro h
    have hj : j < rem.length := Nat.lt_of_succ_lt h
    have hget : rem[j + 1]? = some rem[j + 1] := List.getElem?_eq_getElem h
    have htake : rem.take (j + 2) = rem.take (j + 1) ++ [rem[j + 1]] := by
      rw [List.take_succ, hget]
      rfl
    have hlen : (rem.take (j + 1)).length = j + 1 := by
      simp [List.length_take]
      omega
    rw [scanBackSpace, htake, lastSpacePos_append, hlen, hget]
    by_cases hc : rem[j + 1] = ' '
    · simp [hc]
    · simp [hc, ih hj]

theorem chunkLen_eq_specRowLen (rem : List Char) (w : Nat) (hw : 1 ≤ w) :
    chunkLen rem w = specRowLen rem w := by
  unfold chunkLen specRowLen
  by_cases hle : rem.length ≤ w
  · simp [hle]
  · have hlt : w - 1 < rem.length := by omega
    have hw1 : w - 1 + 1 = w := by omega
    simp only [if_neg hle]
    rw [scanBackSpace_eq_lastSpacePos rem (w - 1) hlt, hw1]

theorem chunkLen_pos (rem : List Char) (w : Nat) (hr : rem ≠ []) (hw : 1 ≤ w) :
    1 ≤ chunkLen rem w := by
  unfold chunkLen
  split
  · exact List.length_pos.mpr hr
  · split
    · exact Nat.succ_le_succ (Nat.zero_le _)
    · exact hw

theorem chunkLen_le (rem : List Char) (w : Nat) (hw : 1 ≤ w) :
    chunkLen rem w ≤ w := by
  unfold chunkLen
  split
  · omega
  · split
    case _ i hscan =>
      have := scanBackSpace_le rem (w - 1) i hscan
      omega
    · exact Nat.le_refl w

theorem getVisualRowsGo_spec (w : Nat) (hw : 1 ≤ w) :
    ∀ (fuel : Nat) (rem : List Char) (offset : Nat),
      getVisualRowsGo w fuel rem offset = getVisualRowsSpecGo w fuel rem offset := by
  intro fuel
  induction fuel with
  | zero => intro rem offset; rfl
  | succ fuel ih =>
    intro rem offset
    by_cases hrem : rem = []
    · simp [getVisualRowsGo, getVisualRowsSpecGo, hrem]
    · simp only [getVisualRowsGo, getVisualRowsSpecGo, if_neg hrem]
      rw [chunkLen_eq_specRowLen rem w hw, ih]

theorem getVisualRowsGo_flatten (w : Nat) (hw : 1 ≤ w) :
    ∀ (fuel : Nat) (rem : List Char) (offset : Nat) (line : List Char),
      rem.length ≤ fuel → line.drop offset = rem →
      ((getVisualRowsGo w fuel rem offset).map (rowText line)).flatten = rem := by
  intro fuel
  induction fuel with
  | zero =>
    intro rem off line hf _
    have hrem : rem = [] := List.eq_nil_of_length_eq_zero (Nat.le_zero.mp hf)
    subst hrem
    simp [getVisualRowsGo]
  | succ fuel ih =>
    intro rem off line hf hd
    by_cases hrem : rem = []
    · subst hrem; simp [getVisualRowsGo]
    · simp only [getVisualRowsGo, if_neg hrem, List.map_cons, List.flatten_cons]
      have hc1 : 1 ≤ chunkLen rem w := chunkLen_pos rem w hrem hw
      have hrpos : 0 < rem.length := List.length_pos.mpr hrem
      have hdrop : line.drop (off + chunkLen rem w) = rem.drop (chunkLen rem w) := by
        rw [← hd, List.drop_drop, Nat.add_comm]
      have hlen : (rem.drop (chunkLen rem w)).length ≤ fuel := by
        simp only [List.length_drop]
        omega
      rw [ih (rem.drop (chunkLen rem w)) (off + chunkLen rem w) line hlen hdrop]
      simp only [rowText, hd]
      exact List.take_append_drop _ _

theorem getVisualRowsGo_mem_pos (w : Nat) (hw : 1 ≤ w) :
    ∀ (fuel : Nat) (rem : List Char) (offset : Nat) (r : VisualRowInfo),
      r ∈ getVisualRowsGo w fuel rem offset → 1 ≤ r.length := by
  intro fuel
  induction fuel with
  | zero => intro rem off r h; cases h
  | succ fuel ih =>
    intro rem off r h
    by_cases hrem : rem = []
    · simp [getVisualRowsGo, hrem] at h
    · simp only [getVisualRowsGo, if_neg hrem, List.mem_cons] at h
      rcases h with h | h
      · subst h; exact chunkLen_pos rem w hrem hw
      · exact ih _ _ r h

theorem getVisualRowsGo_mem_le (w : Nat) (hw : 1 ≤ w) :
    ∀ (fuel : Nat) (rem : List Char) (offset : Nat) (r : VisualRowInfo),
      r ∈ getVisualRowsGo w fuel rem offset → r.length ≤ w := by
  intro fuel
  induction fuel with
  | zero => intro rem off r h; cases h
  | succ fuel ih =>
    intro rem off r h
    by_cases hrem : rem = []
    · simp [getVisualRowsGo, hrem] at h
    · simp only [getVisualRowsGo, if_neg hrem, List.mem_cons] at h
      rcases h with h | h
      · subst h; exact chunkLen_le rem w hw
      · exact ih _ _ r h

theorem safeWidth_pos (width : Int) : 1 ≤ (max 1 width).toNat := by
  have := le_max_left (1 : Int) width
  omega

/-- C4: for every line and width, `getVisualRows` wraps exactly as the
spec's word-aware description prescribes (`getVisualRowsSpec`): a fitting
remainder forms one row, otherwise the row ends just after the last space
among the first width characters if one exists, else it is exactly width
characters; in particular wrapping "hello world" at width 7 yields the
rows (start 0, length 6) and (start 6, length 5). -/
theorem c4_word_aware_wrap :
    (∀ (line : List Char) (width : Int),
      getVisualRows line width = getVisualRowsSpec line width)
    ∧ getVisualRows ("hello world".toList) 7 = [⟨0, 6⟩, ⟨6, 5⟩] := by
  constructor
  · intro line width
    unfold getVisualRows getVisualRowsSpec
    by_cases hl : line.length = 0
    · simp [hl]
    · simp only [if_neg hl]
      exact getVisualRowsGo_spec _ (safeWidth_pos width) _ _ _
  · decide

/-- C5: the rows of `getVisualRows line width` concatenate in order to
exactly `line`; every row of a nonempty line has length at least 1; an
empty line yields exactly one zero-length row. -/
theorem c5_wrap_coverage (line : List Char) (width : Int) :
    ((getVisualRows line width).map (rowText line)).flatten = line
    ∧ (line ≠ [] → ∀ r ∈ getVisualRows line width, 1 ≤ r.length)
    ∧ (line = [] → getVisualRows line width = [⟨0, 0⟩]) := by
  refine ⟨?_, ?_, ?_⟩
  · unfold getVisualRows
    by_cases hl : line.length = 0
    · have : line = [] := List.eq_nil_of_length_eq_zero hl
      subst this
      simp [rowText]
    · simp only [if_neg hl]
      exact getVisualRowsGo_flatten _ (safeWidth_pos width) _ _ _ _
        (Nat.le_refl _) (List.drop_zero line)
  · intro hne r hr
    unfold getVisualRows at hr
    rw [if_neg (fun h => hne (List.eq_nil_of_length_eq_zero h))] at hr
    exact getVisualRowsGo_mem_pos _ (safeWidth_pos width) _ _ _ r hr
  · intro he
    subst he
    rfl

/-- Witness for C5 at line "ab", width 1. -/
theorem c5_wrap_coverage_witness :
    ((getVisualRows ['a', 'b'] 1).map (rowText ['a', 'b'])).flatten = ['a', 'b']
    ∧ (∀ r ∈ getVisualRows ['a', 'b'] 1, 1 ≤ r.length) :=
  ⟨(c5_wrap_coverage ['a', 'b'] 1).1,
   fun r hr => (c5_wrap_coverage ['a', 'b'] 1).2.1 (by decide) r hr⟩

/-- C9: every row produced by `getVisualRows line width` has length at
most `max 1 width` (the clamped display width), for every width including
non-positive ones. -/
theorem c9_row_length_le_clamped_width (line : List Char) (width : Int)
    (r : VisualRowInfo) (hr : r ∈ getVisualRows line width) :
    (r.length : Int) ≤ max 1 width := by
  have h1 : (1 : Int) ≤ max 1 width := le_max_left 1 width
  unfold getVisualRows at hr
  by_cases hl : line.length = 0
  · rw [if_pos hl] at hr
    simp at hr
    subst hr
    simp only []
    omega
  · rw [if_neg hl] at hr
    have := getVisualRowsGo_mem_le _ (safeWidth_pos width) _ _ _ r hr
    omega

/-- Witness for C9 at line "hello world", width 7, first row. -/
theorem c9_row_length_le_clamped_width_witness :
    (⟨0, 6⟩ : VisualRowInfo) ∈ getVisualRows ("hello world".toList) 7
    ∧ ((6 : Nat) : Int) ≤ max 1 (7 : Int) :=
  ⟨by decide,
   c9_row_length_le_clamped_width ("hello world".toList) 7 ⟨0, 6⟩ (by decide)⟩

theorem getCursorGo_getOffset (L : List (List Char)) :
    ∀ i c : Nat, i < L.length → c ≤ (L.getD i []).length →
      getCursorGo L (((L.take i).map (fun l => l.length + 1)).sum + c) = ⟨i, c⟩ := by
  induction L with
  | nil => intro i c hi _; exact absurd hi (by simp)
  | cons l L ih =>
    intro i c hi hc
    cases i with
    | zero =>
      simp only [List.take_zero, List.map_nil, List.sum_nil, Nat.zero_add]
      simp only [List.getD_cons_zero] at hc
      cases L with
      | nil =>
        show getCursorGo [l] c = ⟨0, c⟩
        simp [getCursorGo, Nat.min_eq_left hc]
      | cons l2 rest =>
        simp [getCursorGo, hc]
    | succ j =>
      cases L with
      | nil => simp at hi
      | cons l2 rest =>
        simp only [List.getD_cons_succ] at hc
        have hj : j < (l2 :: rest).length := Nat.lt_of_succ_lt_succ hi
        have hrec := ih j c hj hc
        simp only [List.take_succ_cons, List.map_cons, List.sum_cons]
        rw [getCursorGo]
        have hgt : ¬(l.length + 1 + (((l2 :: rest).take j).map
            (fun l => l.length + 1)).sum + c ≤ l.length) := by omega
        rw [if_neg hgt]
        have hsub : l.length + 1 + (((l2 :: rest).take j).map
            (fun l => l.length + 1)).sum + c - (l.length + 1)
            = (((l2 :: rest).take j).map (fun l => l.length + 1)).sum + c := by omega
        rw [hsub, hrec]

/-- C1: for every buffer with at least one line and every in-bounds
cursor, the flat offset computed by `getOffset` maps back to the same
cursor through `getCursor`. -/
theorem c1_offset_cursor_roundtrip (buffer : Buffer) (cursor : Cursor)
    (hline : cursor.line < buffer.lines.length)
    (hcol : cursor.column ≤ (buffer.lines.getD cursor.line []).length) :
    getCursor buffer (getOffset buffer cursor) = cursor := by
  obtain ⟨L⟩ := buffer
  obtain ⟨i, c⟩ := cursor
  exact getCursorGo_getOffset L i c hline hcol

/-- Witness for C1: buffer with lines "ab" and "c", cursor at the end of
the second line. -/
theorem c1_offset_cursor_roundtrip_witness :
    (1 < (Buffer.mk [['a', 'b'], ['c']]).lines.length)
    ∧ (1 ≤ ((Buffer.mk [['a', 'b'], ['c']]).lines.getD 1 []).length)
    ∧ getCursor ⟨[['a', 'b'], ['c']]⟩ (getOffset ⟨[['a', 'b'], ['c']]⟩ ⟨1, 1⟩)
        = ⟨1, 1⟩ :=
  ⟨by decide, by decide,
   c1_offset_cursor_roundtrip ⟨[['a', 'b'], ['c']]⟩ ⟨1, 1⟩ (by decide) (by decide)⟩

theorem replaceCR_no_cr (l : List Char) : '\r' ∉ replaceCR l := by
  intro h
  simp only [replaceCR, List.mem_map] at h
  obtain ⟨a, _, ha⟩ := h
  by_cases h1 : a = '\r'
  · rw [if_pos h1] at ha
    exact absurd ha (by decide)
  · rw [if_neg h1] at ha
    exact h1 ha

theorem replaceCRLF_of_no_cr : ∀ l : List Char, '\r' ∉ l → replaceCRLF l = l
  | [], _ => rfl
  | [_], _ => rfl
  | c1 :: c2 :: rest, h => by
    have h1 : c1 ≠ '\r' := fun hc => h (by simp [hc])
    have h2 : '\r' ∉ c2 :: rest := fun hc => h (List.mem_cons_of_mem _ hc)
    have ih := replaceCRLF_of_no_cr (c2 :: rest) h2
    simp only [replaceCRLF]
    rw [if_neg (fun hand => h1 hand.1), ih]

theorem replaceCR_of_no_cr : ∀ l : List Char, '\r' ∉ l → replaceCR l = l
  | [], _ => rfl
  | a :: l, h => by
    have h1 : a ≠ '\r' := fun hc => h (by simp [hc])
    have h2 : '\r' ∉ l := fun hc => h (List.mem_cons_of_mem _ hc)
    have ih := replaceCR_of_no_cr l h2
    simp only [replaceCR, List.map_cons] at ih ⊢
    rw [if_neg h1, ih]

theorem normalizeText_idem (t : List Char) :
    normalizeText (normalizeText t) = normalizeText t := by
  unfold normalizeText
  have h := replaceCR_no_cr (replaceCRLF t)
  rw [replaceCRLF_of_no_cr _ h, replaceCR_of_no_cr _ h]

/-- C2 counterexample: the pure `insertText` does not normalize line
terminators, so inserting a CRLF differs from inserting its
normalization (the stray CR stays in the buffer). -/
theorem c2_insertText_counterexample :
    insertText ⟨[[]]⟩ ⟨0, 0⟩ ['\r', '\n'] ≠
      insertText ⟨[[]]⟩ ⟨0, 0⟩ (normalizeText ['\r', '\n']) := by decide

/-- C2 (amended): line-terminator normalization is performed by the
hook's `insert` entry point before it delegates to `insertText`, which
itself splits only on `\n`; hence the insert operation applied to a text
equals the insert operation applied to that text with each CRLF and lone
CR replaced by `\n`. -/
theorem c2_insert_normalizes (cfg : Config) (st : EditorState) (t : List Char) :
    insertOp cfg st t = insertOp cfg st (normalizeText t) := by
  unfold insertOp
  rw [normalizeText_idem]

/-- C8 counterexample: with a width supplied, `up` with the cursor on a
later visual row of (wrapped) line 0 moves within the line instead of
returning the cursor unchanged. -/
theorem c8_up_with_width_counterexample :
    moveCursor ⟨[("hello world".toList)]⟩ ⟨0, 8⟩ Direction.up (some 7) ≠ ⟨0, 8⟩ := by
  decide

/-- C8 (amended): `moveCursor` returns its input cursor unchanged at
buffer boundaries: with `left` at (0,0) and with `right` at the end of
the last line, whether or not a width is supplied; with `up` anywhere on
line 0 and with `down` anywhere on the last line when no width is
supplied, or, when a width is supplied, when the cursor lies on that
line's first (for `up`) / last (for `down`) visual row. -/
theorem c8_boundary_moves_fixed (b : Buffer) (cur : Cursor) (wopt : Option Int) :
    (cur.line = 0 → cur.column = 0 → moveCursor b cur Direction.left wopt = cur)
    ∧ (cur.line = b.lines.length - 1 →
        cur.column = (b.lines.getD cur.line []).length →
        moveCursor b cur Direction.right wopt = cur)
    ∧ (cur.line = 0 →
        (wopt = none ∨ ∀ w, wopt = some w →
          (getVisualPosition cur.column (b.lines.getD cur.line []) w).1 = 0) →
        moveCursor b cur Direction.up wopt = cur)
    ∧ (cur.line = b.lines.length - 1 →
        (wopt = none ∨ ∀ w, wopt = some w →
          (getVisualPosition cur.column (b.lines.getD cur.line []) w).1 =
            getVisualRowCount (b.lines.getD cur.line []) w - 1) →
        moveCursor b cur Direction.down wopt = cur) := by
  obtain ⟨i, c⟩ := cur
  refine ⟨?_, ?_, ?_, ?_⟩
  · intro hi hc
    simp only at hi hc
    subst hi; subst hc
    simp [moveCursor]
  · intro hi hc
    simp only at hi hc
    subst hi
    simp only [moveCursor] at hc ⊢
    rw [hc]
    simp
  · intro hi hw
    simp only at hi
    subst hi
    cases wopt with
    | none => simp [moveCursor]
    | some w =>
      rcases hw with hnone | hvp
      · exact absurd hnone (by simp)
      · have hv := hvp w rfl
        simp only at hv
        simp only [List.getD_eq_getElem?_getD] at hv
        simp [moveCursor, hv]
  · intro hi hw
    simp only at hi
    subst hi
    cases wopt with
    | none => simp [moveCursor]
    | some w =>
      rcases hw with hnone | hvp
      · exact absurd hnone (by simp)
      · have hv := hvp w rfl
        simp only at hv
        simp only [List.getD_eq_getElem?_getD] at hv
        simp [moveCursor, hv]

/-- Witness for C8 on the single-line buffer "ab" with width 5. -/
theorem c8_boundary_moves_fixed_witness :
    moveCursor ⟨[['a', 'b']]⟩ ⟨0, 0⟩ Direction.left (some 5) = ⟨0, 0⟩
    ∧ moveCursor ⟨[['a', 'b']]⟩ ⟨0, 2⟩ Direction.right (some 5) = ⟨0, 2⟩
    ∧ moveCursor ⟨[['a', 'b']]⟩ ⟨0, 1⟩ Direction.up (some 5) = ⟨0, 1⟩
    ∧ moveCursor ⟨[['a', 'b']]⟩ ⟨0, 1⟩ Direction.down (some 5) = ⟨0, 1⟩ := by
  refine ⟨(c8_boundary_moves_fixed ⟨[['a', 'b']]⟩ ⟨0, 0⟩ (some 5)).1 rfl rfl,
          (c8_boundary_moves_fixed ⟨[['a', 'b']]⟩ ⟨0, 2⟩ (some 5)).2.1 (by decide) (by decide),
          (c8_boundary_moves_fixed ⟨[['a', 'b']]⟩ ⟨0, 1⟩ (some 5)).2.2.1 rfl (Or.inr ?_),
          (c8_boundary_moves_fixed ⟨[['a', 'b']]⟩ ⟨0, 1⟩ (some 5)).2.2.2 (by decide) (Or.inr ?_)⟩
  · intro w hw
    cases hw
    decide
  · intro w hw
    cases hw
    decide

theorem insertOp_batchable_pending_none (cfg : Config) (st : EditorState)
    (ch : List Char) (hd : 0 < cfg.undoDebounceMs)
    (h1 : (normalizeText ch).length = 1) (h2 : normalizeText ch ≠ ['\n'])
    (hp : st.pendingBatch = none) :
    insertOp cfg st ch =
      { buffer := (insertText st.buffer st.cursor (normalizeText ch)).1
        cursor := (insertText st.buffer st.cursor (normalizeText ch)).2
        undoStack := st.undoStack
        redoStack := []
        pendingBatch := some ⟨st.buffer, st.cursor⟩ } := by
  simp [insertOp, beginOrRefreshInsertBatch, hp, hd, h1, h2]

theorem insertOp_batchable_pending_some (cfg : Config) (st : EditorState)
    (ch : List Char) (s : HistoryState) (hd : 0 < cfg.undoDebounceMs)
    (h1 : (normalizeText ch).length = 1) (h2 : normalizeText ch ≠ ['\n'])
    (hp : st.pendingBatch = some s) :
    insertOp cfg st ch =
      { st with
        buffer := (insertText st.buffer st.cursor (normalizeText ch)).1
        cursor := (insertText st.buffer st.cursor (normalizeText ch)).2 } := by
  simp [insertOp, beginOrRefreshInsertBatch, hp, hd, h1, h2]

theorem foldl_insertOp_batchable (cfg : Config) (hd : 0 < cfg.undoDebounceMs) :
    ∀ (chars : List (List Char)) (st : EditorState) (s : HistoryState),
      (∀ ch ∈ chars, (normalizeText ch).length = 1 ∧ normalizeText ch ≠ ['\n']) →
      st.pendingBatch = some s →
      (List.foldl (insertOp cfg) st chars).pendingBatch = some s
      ∧ (List.foldl (insertOp cfg) st chars).undoStack = st.undoStack
      ∧ (List.foldl (insertOp cfg) st chars).redoStack = st.redoStack := by
  intro chars
  induction chars with
  | nil => intro st s _ hp; exact ⟨hp, rfl, rfl⟩
  | cons ch chars ih =>
    intro st s hall hp
    have h := hall ch (List.mem_cons_self ch chars)
    rw [List.foldl_cons, insertOp_batchable_pending_some cfg st ch s hd h.1 h.2 hp]
    exact ih _ s (fun c hc => hall c (List.mem_cons_of_mem _ hc)) hp

/-- C3: with batching enabled, after a nonempty run of batchable inserts
(single-character, non-newline after normalization) whose commit timer
has not fired, one `undo` restores the buffer and cursor captured before
the first insert of the run, pushes the pre-undo state onto the redo
stack, and leaves the undo stack untouched (the run itself also never
touched it). -/
theorem c3_batched_inserts_single_undo (cfg : Config) (st : EditorState)
    (chars : List (List Char)) (hd : 0 < cfg.undoDebounceMs)
    (hp : st.pendingBatch = none) (hne : chars ≠ [])
    (hall : ∀ ch ∈ chars,
      (normalizeText ch).length = 1 ∧ normalizeText ch ≠ ['\n']) :
    (undoOp (List.foldl (insertOp cfg) st chars)).buffer = st.buffer
    ∧ (undoOp (List.foldl (insertOp cfg) st chars)).cursor = st.cursor
    ∧ (undoOp (List.foldl (insertOp cfg) st chars)).undoStack
        = (List.foldl (insertOp cfg) st chars).undoStack
    ∧ (List.foldl (insertOp cfg) st chars).undoStack = st.undoStack
    ∧ (undoOp (List.foldl (insertOp cfg) st chars)).redoStack
        = (List.foldl (insertOp cfg) st chars).redoStack
          ++ [⟨(List.foldl (insertOp cfg) st chars).buffer,
              (List.foldl (insertOp cfg) st chars).cursor⟩] := by
  cases chars with
  | nil => exact absurd rfl hne
  | cons ch chars =>
    have h := hall ch (List.mem_cons_self ch chars)
    rw [List.foldl_cons, insertOp_batchable_pending_none cfg st ch hd h.1 h.2 hp]
    obtain ⟨hpend, hundo, _⟩ :=
      foldl_insertOp_batchable cfg hd chars
        { buffer := (insertText st.buffer st.cursor (normalizeText ch)).1
          cursor := (insertText st.buffer st.cursor (normalizeText ch)).2
          undoStack := st.undoStack
          redoStack := []
          pendingBatch := some ⟨st.buffer, st.cursor⟩ }
        ⟨st.buffer, st.cursor⟩
        (fun c hc => hall c (List.mem_cons_of_mem _ hc)) rfl
    refine ⟨?_, ?_, ?_, ?_, ?_⟩ <;>
      simp [undoOp, hpend, hundo]

/-- Witness for C3: inserting "a", "b", "c" from the initial empty state
with debounce 200 and then undoing once yields the pre-"a" state. -/
theorem c3_batched_inserts_single_undo_witness :
    (undoOp (List.foldl (insertOp ⟨none, 100, 200⟩) (initState [])
        [['a'], ['b'], ['c']])).buffer = (initState []).buffer
    ∧ (undoOp (List.foldl (insertOp ⟨none, 100, 200⟩) (initState [])
        [['a'], ['b'], ['c']])).cursor = (initState []).cursor
    ∧ (undoOp (List.foldl (insertOp ⟨none, 100, 200⟩) (initState [])
        [['a'], ['b'], ['c']])).undoStack = (initState []).undoStack := by
  have h := c3_batched_inserts_single_undo ⟨none, 100, 200⟩ (initState [])
    [['a'], ['b'], ['c']] (by decide) rfl (by decide) (by decide)
  exact ⟨h.1, h.2.1, by rw [h.2.2.1, h.2.2.2.1]⟩

/-- C6: evaluation of the trace on which the code exceeds the configured
history limit, together with the claim's own example.  With
`historyLimit = 1` and batching enabled, the sequence insert "a", timer
fire, insert "b", undo, redo leaves TWO entries on the undo stack
(`redo` pushes with a plain append instead of the evicting
`appendUndoState`).  With `historyLimit = 3` and batching disabled, five
single-character inserts keep 3 entries, permit exactly 3 undos (ending
at the post-"ab" snapshot), and a fourth undo is a no-op. -/
theorem c6_history_bound_trace :
    ((redoOp (undoOp (insertOp ⟨none, 1, 200⟩
        (commitPendingInsertBatch ⟨none, 1, 200⟩
          (insertOp ⟨none, 1, 200⟩ (initState ['x']) ['a'])) ['b']))).undoStack.length
      = 2)
    ∧ ((List.foldl (insertOp ⟨none, 3, 0⟩) (initState [])
        [['a'], ['b'], ['c'], ['d'], ['e']]).undoStack.length = 3)
    ∧ (undoOp (undoOp (undoOp (undoOp (List.foldl (insertOp ⟨none, 3, 0⟩)
          (initState []) [['a'], ['b'], ['c'], ['d'], ['e']]))))
        = undoOp (undoOp (undoOp (List.foldl (insertOp ⟨none, 3, 0⟩)
          (initState []) [['a'], ['b'], ['c'], ['d'], ['e']]))))
    ∧ ((undoOp (undoOp (undoOp (List.foldl (insertOp ⟨none, 3, 0⟩)
        (initState []) [['a'], ['b'], ['c'], ['d'], ['e']])))).buffer
      = ⟨[['a', 'b']]⟩) := by
  refine ⟨by decide, by decide, by decide, by decide⟩

/-- C7: `deleteAndNewLine` applies backward delete and then line split to
one single prior state; on buffer with one line "hello\" and cursor
(0,6) it yields the lines "hello" and "" with cursor (1,0). -/
theorem c7_deleteAndNewLine_atomic :
    (∀ (cfg : Config) (st : EditorState),
      (deleteAndNewLineOp cfg st).buffer
          = (insertNewLine (deleteChar st.buffer st.cursor).1
              (deleteChar st.buffer st.cursor).2).1
      ∧ (deleteAndNewLineOp cfg st).cursor
          = (insertNewLine (deleteChar st.buffer st.cursor).1
              (deleteChar st.buffer st.cursor).2).2)
    ∧ (deleteAndNewLineOp ⟨none, 100, 200⟩
        ⟨⟨[("hello\\".toList)]⟩, ⟨0, 6⟩, [], [], none⟩).buffer
        = ⟨[("hello".toList), []]⟩
    ∧ (deleteAndNewLineOp ⟨none, 100, 200⟩
        ⟨⟨[("hello\\".toList)]⟩, ⟨0, 6⟩, [], [], none⟩).cursor = ⟨1, 0⟩ := by
  refine ⟨?_, by decide, by decide⟩
  intro cfg st
  rcases hsp : st.pendingBatch with _ | s <;>
    simp [deleteAndNewLineOp, pushToHistory, commitPendingInsertBatch, hsp]

theorem splitOn_newline_ne_nil (t : List Char) : t.splitOn '\n' ≠ [] := by
  unfold List.splitOn
  exact List.splitOnP_ne_nil _ t

theorem createBuffer_eq_splitOn (t : List Char) :
    createBuffer t = ⟨t.splitOn '\n'⟩ := by
  unfold createBuffer
  split
  next h => rw [h, List.splitOn_nil]
  next => rfl

theorem length_intercalate_end :
    ∀ L : List (List Char), L ≠ [] →
      ((L.take (L.length - 1)).map (fun l => l.length + 1)).sum
          + (L.getLastD []).length
        = (List.intercalate ['\n'] L).length
  | [l], _ => by simp [List.intercalate]
  | l :: l2 :: rest, _ => by
    have ih := length_intercalate_end (l2 :: rest) (by simp)
    have hlast : (l :: l2 :: rest).getLastD [] = (l2 :: rest).getLastD [] := by
      rw [List.getLastD_eq_getLast?, List.getLastD_eq_getLast?,
        List.getLast?_cons_cons]
    have htake : (l :: l2 :: rest).take ((l :: l2 :: rest).length - 1)
        = l :: (l2 :: rest).take ((l2 :: rest).length - 1) := by
      simp
    have hcat : List.intercalate ['\n'] (l :: l2 :: rest)
        = l ++ ['\n'] ++ List.intercalate ['\n'] (l2 :: rest) := by
      simp [List.intercalate]
    rw [htake, hlast, hcat]
    simp only [List.map_cons, List.sum_cons, List.length_append,
      List.length_cons, List.length_nil, Nat.add_sub_cancel] at ih ⊢
    omega

theorem cursor_end_offset (t : List Char) :
    getOffset ⟨t.splitOn '\n'⟩
      ⟨(t.splitOn '\n').length - 1, ((t.splitOn '\n').getLastD []).length⟩
      = t.length := by
  have h := length_intercalate_end (t.splitOn '\n') (splitOn_newline_ne_nil t)
  unfold getOffset
  simp only []
  rw [h, List.intercalate_splitOn]

/-- C10: `setText` — and likewise initialization with an initial value —
places the cursor at the end of the text: the line index is the number
of newline-separated lines of the text minus 1 and the column is the
length of the last such line; equivalently the cursor sits on the new
buffer's last line at its end, and its flat offset equals the length of
the text. -/
theorem c10_setText_cursor_at_end (cfg : Config) (st : EditorState)
    (t : List Char) :
    ((setTextOp cfg st t).cursor.line = (t.splitOn '\n').length - 1
      ∧ (setTextOp cfg st t).cursor.column = ((t.splitOn '\n').getLastD []).length
      ∧ (setTextOp cfg st t).cursor.line = (setTextOp cfg st t).buffer.lines.length - 1
      ∧ (setTextOp cfg st t).cursor.column
          = ((setTextOp cfg st t).buffer.lines.getLastD []).length
      ∧ getOffset (setTextOp cfg st t).buffer (setTextOp cfg st t).cursor = t.length)
    ∧ ((initState t).cursor.line = (t.splitOn '\n').length - 1
      ∧ (initState t).cursor.column = ((t.splitOn '\n').getLastD []).length
      ∧ (initState t).cursor.line = (initState t).buffer.lines.length - 1
      ∧ (initState t).cursor.column = ((initState t).buffer.lines.getLastD []).length
      ∧ getOffset (initState t).buffer (initState t).cursor = t.length) := by
  have hb1 : (setTextOp cfg st t).buffer = ⟨t.splitOn '\n'⟩ := createBuffer_eq_splitOn t
  have hc1 : (setTextOp cfg st t).cursor
      = ⟨(t.splitOn '\n').length - 1, ((t.splitOn '\n').getLastD []).length⟩ := rfl
  have hb2 : (initState t).buffer = ⟨t.splitOn '\n'⟩ := createBuffer_eq_splitOn t
  have hc2 : (initState t).cursor
      = ⟨(t.splitOn '\n').length - 1, ((t.splitOn '\n').getLastD []).length⟩ := rfl
  rw [hb1, hc1, hb2, hc2]
  exact ⟨⟨rfl, rfl, rfl, rfl, cursor_end_offset t⟩,
         ⟨rfl, rfl, rfl, rfl, cursor_end_offset t⟩⟩

end InkPrompt
